import Mathlib

/-!
Verification of the chunking and vector-retrieval core of the
rag-document-assistant repository against its specification.

The embedding covers:
* `backend/app/services/chunking_service.py` (class `ChunkingService`), and
* `backend/app/services/local_vector_store.py` (class `LocalVectorStore`).

Text is modelled as `List Char` (Python `str` indexing and `len` operate on
code points, which coincides with `List Char`).  Embedding vectors are
modelled over `ℚ`: the Python code computes squared Euclidean distances and
the score `1/(1 + d/100)` in float32; the rational model gives the exact
real-number semantics that the specification's numeric claims describe.
Wall-clock data (the `created_at` timestamp) and the free-form metadata
pass-through dict are not modelled: no claim mentions them and they do not
influence any modelled observable.  Python's `uuid4` chunk ids are modelled
by a counter producing distinct ids, which is the only property the source
relies on.
-/

namespace Rag

/-! ### Python primitives used by `_clean_text` / `_split_into_sentences` -/

/-- Characters matched by Python's `\s` (ASCII range) and by `str.strip()` /
`str.split()` for the inputs considered here. -/
def isPySpace (c : Char) : Bool :=
  c == ' ' || c == '\t' || c == '\n' || c == '\r' || c == '\x0b' || c == '\x0c'

/-- Characters of the class `[\r\n\t]` from `_clean_text` line 86. -/
def isRNT (c : Char) : Bool :=
  c == '\r' || c == '\n' || c == '\t'

/-- Uppercase ASCII letter, the regex class `[A-Z]`. -/
def isUpperAZ (c : Char) : Bool :=
  'A' ≤ c && c ≤ 'Z'

/-- One of `.`, `!`, `?` — the lookbehind class `[.!?]`. -/
def isSentEnd (c : Char) : Bool :=
  c == '.' || c == '!' || c == '?'

/-- Python `str.lstrip()` over `\s`. -/
def stripLeft (l : List Char) : List Char := l.dropWhile isPySpace

/-- Python `str.rstrip()` over `\s`. -/
def stripRight (l : List Char) : List Char := (l.reverse.dropWhile isPySpace).reverse

/-- Python `str.strip()`. -/
def pyStrip (l : List Char) : List Char := stripRight (stripLeft l)

/-- The effect of `re.sub(r'\s+', ' ', text)`: each maximal run of whitespace
becomes a single space.  The boolean records whether the previous character
was part of a whitespace run. -/
def collapseWsAux : Bool → List Char → List Char
  | _, [] => []
  | prevWs, c :: rest =>
    if isPySpace c then
      if prevWs then collapseWsAux true rest else ' ' :: collapseWsAux true rest
    else c :: collapseWsAux false rest

/-- The effect of `re.sub(r'[\r\n\t]+', ' ', text)` (line 86): each maximal
run of `\r`, `\n`, `\t` becomes a single space. -/
def collapseRNTAux : Bool → List Char → List Char
  | _, [] => []
  | prevR, c :: rest =>
    if isRNT c then
      if prevR then collapseRNTAux true rest else ' ' :: collapseRNTAux true rest
    else c :: collapseRNTAux false rest

/-- Line 89 of the source replaces the ASCII double quote by itself twice
(`text.replace('"', '"').replace('"', '"')` — both arguments are the plain
ASCII quote in the file's bytes), so it is an identity character map. -/
def replaceQuotes (l : List Char) : List Char :=
  l.map (fun c => if c == '"' then '"' else c)

/-- Line 90 replaces en dash U+2013 and em dash U+2014 by `-`. -/
def replaceDashes (l : List Char) : List Char :=
  l.map (fun c => if c == '–' || c == '—' then '-' else c)

/-- `ChunkingService._clean_text`: collapse whitespace, collapse `[\r\n\t]+`,
normalize quotes and dashes, then strip. -/
def clean_text (text : List Char) : List Char :=
  pyStrip (replaceDashes (replaceQuotes (collapseRNTAux false (collapseWsAux false text))))

/-- Whether a list starts with a whitespace run followed by an uppercase ASCII
letter: the condition under which the regex `(?<=[.!?])\s+(?=[A-Z])` matches
at the current position (the greedy `\s+` must swallow the whole run, after
which the lookahead requires `[A-Z]`). -/
def startsWsUpper : List Char → Bool
  | [] => false
  | c :: rest => isPySpace c && (match (c :: rest).dropWhile isPySpace with
      | [] => false
      | u :: _ => isUpperAZ u)

/-- Worker for `re.split(r'(?<=[.!?])\s+(?=[A-Z])', text)`: `acc` is the
current piece reversed.  At a match the separator (the whitespace run) is
dropped and a new piece starts; the boolean is `true` while the matched
whitespace run is being consumed (entered only when `startsWsUpper`
guaranteed that the run ends at an uppercase letter, which is never in
`[.!?]`, so skipping the boundary re-check on that letter is sound). -/
def sentSplitAux : Bool → List Char → List Char → List (List Char)
  | _, acc, [] => [acc.reverse]
  | true, acc, c :: rest =>
    if isPySpace c then sentSplitAux true acc rest
    else sentSplitAux false (c :: acc) rest
  | false, acc, c :: rest =>
    if isSentEnd c && startsWsUpper rest then
      (c :: acc).reverse :: sentSplitAux true [] rest
    else
      sentSplitAux false (c :: acc) rest

/-- `ChunkingService._split_into_sentences`: split on the sentence-boundary
regex, strip each piece, and drop empty pieces. -/
def split_into_sentences (text : List Char) : List (List Char) :=
  ((sentSplitAux false [] text).map pyStrip).filter (fun s => !s.isEmpty)

/-! ### The chunk-assembly loops

`_create_chunks_with_overlap` and `_split_long_sentence` are loops that
emit chunks; the embedding additionally tags every emitted chunk with the
program point that emitted it, so that theorems can speak about "the
overlap path" and "the single-long-word truncation path".  Erasing the tags
(`Prod.fst`) gives exactly the source behaviour. -/

/-- Program point that emitted a chunk. -/
inductive EmitPath where
  /-- line 134: `chunks.append(current_chunk.strip())` followed by seeding the
  next buffer with the trailing overlap characters -/
  | overlapEmit
  /-- line 160: the final `chunks.append(current_chunk.strip())` after the loop -/
  | plainFinal
  /-- line 181 in `_split_long_sentence`: accumulated words emitted -/
  | longAccum
  /-- line 185 in `_split_long_sentence`: `chunks.append(word[:self.chunk_size])` -/
  | longTrunc
  /-- line 193 in `_split_long_sentence`: the final buffer of words -/
  | longFinal
deriving DecidableEq, Repr

/-- Python `str.split()` (no argument): split on whitespace runs, discarding
empty pieces.  `acc` is the current word reversed. -/
def pySplitWsAux (acc : List Char) : List Char → List (List Char)
  | [] => if acc.isEmpty then [] else [acc.reverse]
  | c :: rest =>
    if isPySpace c then
      if acc.isEmpty then pySplitWsAux [] rest else acc.reverse :: pySplitWsAux [] rest
    else
      pySplitWsAux (c :: acc) rest

/-- The word loop of `ChunkingService._split_long_sentence` (lines 178-193),
with emission tags. -/
def splitWordsAux (cs : Nat) : List (List Char) → List Char → List (List Char × EmitPath)
  | [], cur => if cur.isEmpty then [] else [(pyStrip cur, EmitPath.longFinal)]
  | w :: rest, cur =>
    if cur.length + w.length + 1 > cs then
      if cur.isEmpty then
        (w.take cs, EmitPath.longTrunc) :: splitWordsAux cs rest []
      else
        (pyStrip cur, EmitPath.longAccum) :: splitWordsAux cs rest w
    else
      splitWordsAux cs rest (if cur.isEmpty then w else cur ++ ' ' :: w)

/-- `ChunkingService._split_long_sentence`, tagged. -/
def split_long_sentenceT (cs : Nat) (sentence : List Char) : List (List Char × EmitPath) :=
  splitWordsAux cs (pySplitWsAux [] sentence) []

/-- The trailing characters `current_chunk[max(0, len(current_chunk) - ov):]`
used to seed the next buffer (lines 137-138). -/
def lastChars (ov : Nat) (l : List Char) : List Char :=
  l.drop (l.length - ov)

/-- The sentence loop of `ChunkingService._create_chunks_with_overlap`
(lines 124-162), with emission tags.  `cur` is `current_chunk`. -/
def chunksLoopT (cs ov : Nat) : List (List Char) → List Char → List (List Char × EmitPath)
  | [], cur => if cur.isEmpty then [] else [(pyStrip cur, EmitPath.plainFinal)]
  | s :: rest, cur =>
    if cur.length + s.length + 1 > cs then
      if cur.isEmpty then
        if s.length > cs then
          split_long_sentenceT cs s ++ chunksLoopT cs ov rest []
        else
          chunksLoopT cs ov rest s
      else
        (pyStrip cur, EmitPath.overlapEmit) :: chunksLoopT cs ov rest (lastChars ov cur ++ ' ' :: s)
    else
      chunksLoopT cs ov rest (if cur.isEmpty then s else cur ++ ' ' :: s)

/-- `ChunkingService._create_chunks_with_overlap`: the emitted chunks, in
order (tags erased). -/
def create_chunks_with_overlap (cs ov : Nat) (sentences : List (List Char)) : List (List Char) :=
  (chunksLoopT cs ov sentences []).map Prod.fst

/-- The chunk dictionaries produced by `ChunkingService.chunk_text`
(lines 50-63): id, text, index, size, and the metadata fields. -/
structure ChunkRecord where
  chunk_id : String
  chunk_text : List Char
  chunk_index : Nat
  chunk_size : Nat
  md_document_id : Option String
  md_chunk_number : Nat
  md_total_chunks : Nat
deriving DecidableEq, Repr

/-- The `for i, chunk in enumerate(chunks)` loop of `chunk_text`. -/
def buildRecords (docId : Option String) (total : Nat) : Nat → List (List Char) → List ChunkRecord
  | _, [] => []
  | i, c :: rest =>
    { chunk_id := match docId with
        | some d => d ++ "_chunk_" ++ toString i
        | none => "chunk_" ++ toString i
      chunk_text := c
      chunk_index := i
      chunk_size := c.length
      md_document_id := docId
      md_chunk_number := i + 1
      md_total_chunks := total } :: buildRecords docId total (i + 1) rest

/-- `ChunkingService.chunk_text` for a service configured with
`chunk_size = cs`, `overlap_size = ov`. -/
def chunk_text (cs ov : Nat) (text : List Char) (document_id : Option String) : List ChunkRecord :=
  let cleaned := clean_text text
  let sentences := split_into_sentences cleaned
  let chunks := create_chunks_with_overlap cs ov sentences
  buildRecords document_id chunks.length 0 chunks

/-- The tagged chunk sequence of a text (the instrumented core of
`chunk_text`; `create_chunks_with_overlap` is its tag-erasure). -/
def chunk_text_tagged (cs ov : Nat) (text : List Char) : List (List Char × EmitPath) :=
  chunksLoopT cs ov (split_into_sentences (clean_text text)) []

/-- The `ChunkingService` configuration state set by `__init__`. -/
structure ChunkingService where
  chunk_size : Nat
  overlap_size : Nat
deriving DecidableEq, Repr

/-- `ChunkingService.__init__` (lines 17-26): it assigns the two fields and
contains no validation, so it has no failure path; the `Except` result type
makes the absence of any raised error explicit. -/
def chunkingServiceInit (chunk_size overlap_size : Nat) : Except String ChunkingService :=
  Except.ok { chunk_size := chunk_size, overlap_size := overlap_size }

/-! ### LocalVectorStore -/

/-- An embedding vector.  The float32 arithmetic of numpy/faiss is modelled
exactly over `ℚ`. -/
abbrev Vec := List ℚ

/-- Squared Euclidean distance, the metric of `faiss.IndexFlatL2`. -/
def sqDist (a b : Vec) : ℚ :=
  (List.zipWith (fun x y => (x - y) * (x - y)) a b).sum

/-- Line 139: `similarity_score = 1.0 / (1.0 + distance / 100.0)`. -/
def simScore (d : ℚ) : ℚ := 1 / (1 + d / 100)

/-- One value of the `self._metadata` dict: the fields written at
lines 88-94.  `created_at` (wall clock) and the `**chunk.get("metadata", {})`
pass-through are not modelled; no claim observes them. -/
structure ChunkMeta where
  document_id : String
  chunk_index : Nat
  chunk_text : List Char
deriving DecidableEq, Repr

/-- The two artifacts `_save_index` writes (`index.faiss` is written only
when `self._index is not None`, `metadata.json` always). -/
structure DiskState where
  metadata : List (Nat × ChunkMeta)
  doc_chunks : List (String × List Nat)
  index : Option (List Vec)
deriving DecidableEq, Repr

/-- The in-memory state of a `LocalVectorStore` plus the on-disk artifacts.
Python dicts are insertion-ordered, hence association lists; `nextId` models
`uuid.uuid4()`, whose only relied-upon property is producing fresh distinct
keys. -/
structure StoreState where
  embedding_dim : Nat
  nextId : Nat
  index : Option (List Vec)
  metadata : List (Nat × ChunkMeta)
  doc_chunks : List (String × List Nat)
  disk : DiskState
deriving DecidableEq, Repr

/-- A store constructed over a fresh directory (`_load_index` finds no
files). -/
def initStore (embedding_dim : Nat) : StoreState :=
  { embedding_dim := embedding_dim, nextId := 0, index := none,
    metadata := [], doc_chunks := [], disk := ⟨[], [], none⟩ }

/-- `LocalVectorStore._save_index` (lines 53-68). -/
def save_index (st : StoreState) : StoreState :=
  { st with
    disk := { metadata := st.metadata, doc_chunks := st.doc_chunks,
              index := match st.index with
                | none => st.disk.index
                | some v => some v } }

/-- Number of vectors held by the faiss index (`self._index.ntotal`, with 0
for a not-yet-created index). -/
def ntotal (st : StoreState) : Nat :=
  match st.index with
  | none => 0
  | some v => v.length

/-- The vectors of the index (empty when not yet created). -/
def indexVecs (st : StoreState) : List Vec :=
  st.index.getD []

/-- One element of the `chunks` argument of `store_document_chunks`. -/
structure ChunkIn where
  chunk_index : Nat
  chunk_text : List Char
deriving DecidableEq, Repr

/-- Errors that `store_document_chunks` can raise. -/
inductive VSError where
  /-- `np.array(embeddings)` on rows of differing lengths raises before any
  state is touched (line 80) -/
  | raggedBatch
  /-- `faiss.IndexFlatL2.add` rejects rows whose length differs from the
  dimension the index was created with (line 100) -/
  | dimensionMismatch
  /-- adding a batch with an empty embedding list makes `index.add` fail on
  the degenerate array shape (line 100) -/
  | emptyBatchAdd
deriving DecidableEq, Repr

/-- Whether all rows of a batch share one length (so that `np.array` builds
a regular 2-d array). -/
def sameLengths : List Vec → Bool
  | [] => true
  | e :: rest => rest.all (fun x => x.length == e.length)

/-- The `self._doc_chunks` update of lines 96-98: create the key if absent,
then append the chunk id. -/
def docChunksAppend (m : List (String × List Nat)) (k : String) (v : Nat) : List (String × List Nat) :=
  if (m.lookup k).isSome then
    m.map (fun p => if p.1 == k then (p.1, p.2 ++ [v]) else p)
  else
    m ++ [(k, [v])]

/-- The `for chunk, embedding in zip(chunks, embeddings)` loop of
lines 85-98: each pair gets a fresh id, a metadata entry and a
`_doc_chunks` entry (the embedding itself is not used inside the loop). -/
def storeChunksMeta (docId : String) : StoreState → List (ChunkIn × Vec) → StoreState
  | st, [] => st
  | st, (c, _) :: rest =>
    storeChunksMeta docId
      { st with
        nextId := st.nextId + 1,
        metadata := st.metadata ++ [(st.nextId, ⟨docId, c.chunk_index, c.chunk_text⟩)],
        doc_chunks := docChunksAppend st.doc_chunks docId st.nextId }
      rest

/-- `LocalVectorStore.store_document_chunks` (lines 70-104).  The returned
state is the state after the call even when the call raises: the metadata
loop (lines 85-98) runs before `self._index.add` (line 100), so a
dimension-mismatch failure leaves the metadata of the batch behind, while
`_save_index` (line 101) is reached only on success. -/
def store_document_chunks (st : StoreState) (docId : String)
    (chunks : List ChunkIn) (embeddings : List Vec) :
    StoreState × Except VSError Bool :=
  if chunks.isEmpty then (st, Except.ok true)
  else if !sameLengths embeddings then (st, Except.error VSError.raggedBatch)
  else
    let idx0 := st.index.getD []
    let st1 := storeChunksMeta docId { st with index := some idx0 } (chunks.zip embeddings)
    if embeddings.isEmpty then (st1, Except.error VSError.emptyBatchAdd)
    else if embeddings.all (fun e => e.length == st.embedding_dim) then
      (save_index { st1 with index := some (idx0 ++ embeddings) }, Except.ok true)
    else (st1, Except.error VSError.dimensionMismatch)

/-- One element of the result list of `search_similar_chunks`
(lines 142-151; the redundant `metadata` sub-dict is the other fields minus
`chunk_text` and is not repeated here). -/
structure SearchResult where
  chunk_id : Nat
  document_id : String
  chunk_text : List Char
  chunk_index : Nat
  similarity_score : ℚ
deriving DecidableEq, Repr

/-- The faiss ranking order on (distance, position) pairs: ascending
distance, ties by ascending position (exhaustive flat search is
deterministic; the position tie-break fixes the model). -/
def rankRel (a b : ℚ × Nat) : Prop :=
  a.1 < b.1 ∨ (a.1 = b.1 ∧ a.2 ≤ b.2)

instance rankRelDecidable : DecidableRel rankRel := fun a b => by
  unfold rankRel; infer_instance

instance rankRelTotal : IsTotal (ℚ × Nat) rankRel where
  total a b := by
    unfold rankRel
    rcases lt_trichotomy a.1 b.1 with h | h | h
    · exact Or.inl (Or.inl h)
    · rcases Nat.le_total a.2 b.2 with h2 | h2
      · exact Or.inl (Or.inr ⟨h, h2⟩)
      · exact Or.inr (Or.inr ⟨h.symm, h2⟩)
    · exact Or.inr (Or.inl h)

instance rankRelTrans : IsTrans (ℚ × Nat) rankRel where
  trans a b c hab hbc := by
    unfold rankRel at *
    rcases hab with h1 | ⟨e1, n1⟩
    · rcases hbc with h2 | ⟨e2, _⟩
      · exact Or.inl (h1.trans h2)
      · exact Or.inl (e2 ▸ h1)
    · rcases hbc with h2 | ⟨e2, n2⟩
      · exact Or.inl (e1 ▸ h2)
      · exact Or.inr ⟨e1.trans e2, n1.trans n2⟩

/-- The (distance, position) pairs of every stored vector against the
query, positions starting at `start`. -/
def enumDists (q : Vec) : List Vec → Nat → List (ℚ × Nat)
  | [], _ => []
  | v :: vs, start => (sqDist q v, start) :: enumDists q vs (start + 1)

/-- The model of `self._index.search(query, k)`: exhaustive scan, ranked by
distance (ties by position), truncated to `k`. -/
def faissSearch (vecs : List Vec) (q : Vec) (k : Nat) : List (ℚ × Nat) :=
  (List.insertionSort rankRel (enumDists q vecs 0)).take k

/-- `self._metadata.get(chunk_id, {})` (line 133): a missing key yields the
default-valued entry (empty strings / zero). -/
def metaGetD (m : List (Nat × ChunkMeta)) (k : Nat) : ChunkMeta :=
  (m.lookup k).getD ⟨"", 0, []⟩

/-- Line 136: `if document_ids and chunk_doc_id not in document_ids`.
Python truthiness makes `None` and the empty list both disable the
filter. -/
def docFilterRejects (document_ids : Option (List String)) (d : String) : Bool :=
  match document_ids with
  | none => false
  | some ids => !ids.isEmpty && !ids.contains d

/-- The per-hit body of the `for distance, idx in zip(...)` loop of
lines 128-151: map the faiss position back through the insertion-ordered
metadata keys, filter by document and threshold. -/
def searchHit (st : StoreState) (document_ids : Option (List String))
    (threshold : ℚ) (hit : ℚ × Nat) : Option SearchResult :=
  match (st.metadata.map Prod.fst)[hit.2]? with
  | none => none
  | some cid =>
    let meta := metaGetD st.metadata cid
    if docFilterRejects document_ids meta.document_id then none
    else
      let s := simScore hit.1
      if s ≥ threshold then
        some { chunk_id := cid,
               document_id := if meta.document_id == "" then "unknown" else meta.document_id,
               chunk_text := meta.chunk_text,
               chunk_index := meta.chunk_index,
               similarity_score := s }
      else none

/-- `LocalVectorStore.search_similar_chunks` (lines 106-154); `limit`
defaults to `N_RESULTS = 5` and `threshold` to `MINIMUM_SCORE = 0.3` at the
call sites. -/
def search_similar_chunks (st : StoreState) (query : Vec)
    (document_ids : Option (List String)) (limit : Nat) (threshold : ℚ) :
    List SearchResult :=
  match st.index with
  | none => []
  | some vecs =>
    if vecs.isEmpty then []
    else
      (faissSearch vecs query (if limit > vecs.length then vecs.length else limit)).filterMap
        (searchHit st document_ids threshold)

/-- Spec-side comparator for claim C6's "a threshold of 0 excludes nothing
that was found": the same search with the similarity filter removed. -/
def searchHitNoThr (st : StoreState) (document_ids : Option (List String))
    (hit : ℚ × Nat) : Option SearchResult :=
  match (st.metadata.map Prod.fst)[hit.2]? with
  | none => none
  | some cid =>
    let meta := metaGetD st.metadata cid
    if docFilterRejects document_ids meta.document_id then none
    else
      some { chunk_id := cid,
             document_id := if meta.document_id == "" then "unknown" else meta.document_id,
             chunk_text := meta.chunk_text,
             chunk_index := meta.chunk_index,
             similarity_score := simScore hit.1 }

/-- Spec-side comparator: `search_similar_chunks` without the
`min_similarity` filter. -/
def search_no_threshold (st : StoreState) (query : Vec)
    (document_ids : Option (List String)) (limit : Nat) : List SearchResult :=
  match st.index with
  | none => []
  | some vecs =>
    if vecs.isEmpty then []
    else
      (faissSearch vecs query (if limit > vecs.length then vecs.length else limit)).filterMap
        (searchHitNoThr st document_ids)

/-- `LocalVectorStore.delete_document_chunks` (lines 176-191): metadata and
the document's chunk-id list are removed and the result persisted, but the
vectors stay in the faiss index; an unknown (or chunk-less) document id
returns `True` immediately, before any mutation or persist step. -/
def delete_document_chunks (st : StoreState) (docId : String) : StoreState × Bool :=
  let chunk_ids := (st.doc_chunks.lookup docId).getD []
  if chunk_ids.isEmpty then (st, true)
  else
    let md := st.metadata.filter (fun p => !chunk_ids.contains p.1)
    let dc := st.doc_chunks.filter (fun p => !(p.1 == docId))
    (save_index { st with metadata := md, doc_chunks := dc }, true)

/-! ### Helper lemmas about stripping and buffers -/

/-- The list `b` extends the list `a` on the right ( `a` is an initial
segment of `b`). -/
def IsStart (a b : List Char) : Prop := ∃ t, b = a ++ t

/-- No trailing whitespace. -/
def noTailWs (l : List Char) : Prop :=
  ∀ c, l.getLast? = some c → isPySpace c = false

/-- Adjacency property: after every chunk emitted on the overlap path, the
next chunk starts with the seeded overlap text, up to the leading
whitespace that `str.strip()` removes from the next chunk. -/
def AdjOk (ov : Nat) (L : List (List Char × EmitPath)) : Prop :=
  ∀ i c₁ c₂ t₂, L[i]? = some (c₁, EmitPath.overlapEmit) → L[i + 1]? = some (c₂, t₂) →
    IsStart (stripLeft (lastChars ov c₁)) c₂

/-- Scenario for claims C1 and C7: two single-chunk documents `"A"` and
`"B"` stored, then document `"A"` deleted.  The delete removes only
metadata, so the index still holds both vectors. -/
def c1Store : StoreState :=
  (delete_document_chunks
    (store_document_chunks
      (store_document_chunks (initStore 2) "A" [⟨0, "a".toList⟩] [[1, 0]]).1
      "B" [⟨0, "b".toList⟩] [[0, 1]]).1
    "A").1

theorem isStart_refl (a : List Char) : IsStart a a := ⟨[], by simp⟩

theorem isStart_append (a t : List Char) : IsStart a (a ++ t) := ⟨t, rfl⟩

theorem isStart_nil (b : List Char) : IsStart [] b := ⟨b, rfl⟩

theorem isStart_trans {a b c : List Char} (h₁ : IsStart a b) (h₂ : IsStart b c) :
    IsStart a c := by
  obtain ⟨t₁, rfl⟩ := h₁
  obtain ⟨t₂, rfl⟩ := h₂
  exact ⟨t₁ ++ t₂, by simp⟩

/-- The executable check `List.isPrefixOf` decides `IsStart`. -/
theorem isPrefixOf_ex (a b : List Char) : a.isPrefixOf b = true ↔ IsStart a b := by
  induction a generalizing b with
  | nil => simpa [List.isPrefixOf] using isStart_nil b
  | cons x xs ih =>
    cases b with
    | nil =>
      simp only [List.isPrefixOf, IsStart]
      constructor
      · intro h; cases h
      · rintro ⟨t, ht⟩; cases ht
    | cons y ys =>
      simp only [List.isPrefixOf, Bool.and_eq_true, beq_iff_eq, ih, IsStart]
      constructor
      · rintro ⟨rfl, t, rfl⟩; exact ⟨t, rfl⟩
      · rintro ⟨t, ht⟩
        injection ht with h1 h2
        exact ⟨h1.symm, t, h2⟩

theorem noTailWs_nil : noTailWs [] := by intro c h; cases h

theorem stripLeft_eq_self {l : List Char}
    (h : ∀ c, l.head? = some c → isPySpace c = false) : stripLeft l = l := by
  cases l with
  | nil => rfl
  | cons c rest =>
    have := h c rfl
    simp [stripLeft, List.dropWhile_cons, this]

theorem stripRight_eq_self {l : List Char} (h : noTailWs l) : stripRight l = l := by
  unfold stripRight
  have hh : ∀ c, l.reverse.head? = some c → isPySpace c = false := by
    intro c hc
    rw [List.head?_reverse] at hc
    exact h c hc
  rw [show l.reverse.dropWhile isPySpace = l.reverse from stripLeft_eq_self hh]
  exact l.reverse_reverse

theorem getLast?_suffix {s l : List Char} (h : s <:+ l) (hne : s ≠ []) :
    s.getLast? = l.getLast? := by
  obtain ⟨t, rfl⟩ := h
  rw [List.getLast?_append]
  cases hs : s.getLast? with
  | none => exact absurd (List.getLast?_eq_none.mp hs) hne
  | some c => rfl

theorem noTailWs_stripLeft {l : List Char} (h : noTailWs l) : noTailWs (stripLeft l) := by
  intro c hc
  have hne : stripLeft l ≠ [] := by
    intro he; rw [he] at hc; cases hc
  have := getLast?_suffix (List.dropWhile_suffix (l := l) isPySpace) hne
  exact h c (this ▸ hc)

theorem pyStrip_eq_stripLeft {l : List Char} (h : noTailWs l) : pyStrip l = stripLeft l :=
  stripRight_eq_self (noTailWs_stripLeft h)

theorem noTailWs_stripRight (l : List Char) : noTailWs (stripRight l) := by
  intro c hc
  unfold stripRight at hc
  rw [List.getLast?_reverse] at hc
  have := List.head?_dropWhile_not isPySpace l.reverse
  rw [hc] at this
  exact this

theorem noTailWs_pyStrip (l : List Char) : noTailWs (pyStrip l) :=
  noTailWs_stripRight _

theorem pyStrip_length_le (l : List Char) : (pyStrip l).length ≤ l.length := by
  have h1 : (stripLeft l).length ≤ l.length :=
    (List.dropWhile_suffix isPySpace).length_le
  have h2 : (pyStrip l).length ≤ (stripLeft l).length := by
    unfold pyStrip stripRight
    rw [List.length_reverse]
    calc ((stripLeft l).reverse.dropWhile isPySpace).length
        ≤ (stripLeft l).reverse.length := (List.dropWhile_suffix isPySpace).length_le
      _ = (stripLeft l).length := List.length_reverse _
  exact h2.trans h1

theorem noTailWs_append {b s : List Char} (hs : noTailWs s) (hne : s ≠ []) :
    noTailWs (b ++ s) := by
  intro c hc
  rw [List.getLast?_append] at hc
  cases h : s.getLast? with
  | none => exact absurd (List.getLast?_eq_none.mp h) hne
  | some d =>
    rw [h] at hc
    cases hc
    exact hs c h

theorem last_mem_nonWs {l : List Char} (h : noTailWs l) (hne : l ≠ []) :
    ∃ c ∈ l, isPySpace c = false := by
  refine ⟨l.getLast hne, List.getLast_mem hne, ?_⟩
  exact h _ (List.getLast?_eq_getLast l hne)

theorem stripLeft_append {l r : List Char} (h : ∃ c ∈ l, isPySpace c = false) :
    stripLeft (l ++ r) = stripLeft l ++ r := by
  induction l with
  | nil => obtain ⟨c, hc, _⟩ := h; cases hc
  | cons x xs ih =>
    by_cases hx : isPySpace x = true
    · obtain ⟨c, hc, hcf⟩ := h
      rcases List.mem_cons.mp hc with rfl | hmem
      · rw [hx] at hcf; cases hcf
      · simp only [List.cons_append, stripLeft, List.dropWhile_cons, hx, if_true]
        exact ih ⟨c, hmem, hcf⟩
    · simp only [Bool.not_eq_true] at hx
      simp [stripLeft, List.dropWhile_cons, hx]

theorem stripLeft_ws_append {w r : List Char} (h : ∀ c ∈ w, isPySpace c = true) :
    stripLeft (w ++ r) = stripLeft r := by
  induction w with
  | nil => rfl
  | cons x xs ih =>
    have hx := h x (List.mem_cons_self _ _)
    simp only [List.cons_append, stripLeft, List.dropWhile_cons, hx, if_true]
    exact ih (fun c hc => h c (List.mem_cons_of_mem _ hc))

theorem lastChars_length (ov : Nat) (l : List Char) :
    (lastChars ov l).length = min ov l.length := by
  unfold lastChars
  rw [List.length_drop]
  omega

theorem noTailWs_lastChars {l : List Char} (ov : Nat) (h : noTailWs l) :
    noTailWs (lastChars ov l) := by
  intro c hc
  have hne : lastChars ov l ≠ [] := by
    intro he; rw [he] at hc; cases hc
  have := getLast?_suffix (List.drop_suffix (l.length - ov) l) hne
  exact h c (this ▸ hc)

/-- Taking the trailing `ov` characters of a list ignores an all-whitespace
block in front, up to a final leading-whitespace strip. -/
theorem stripLeft_lastChars_aux (ov : Nat) (w core : List Char)
    (hw : ∀ c ∈ w, isPySpace c = true) :
    stripLeft (lastChars ov core) = stripLeft (lastChars ov (w ++ core)) := by
  have hlen : (w ++ core).length = w.length + core.length := List.length_append w core
  by_cases hov : ov ≤ core.length
  · have heq : lastChars ov (w ++ core) = lastChars ov core := by
      unfold lastChars
      rw [List.drop_append_eq_append_drop,
        List.drop_eq_nil_of_le (by rw [hlen]; omega),
        show (w ++ core).length - ov - w.length = core.length - ov by rw [hlen]; omega,
        List.nil_append]
    rw [heq]
  · push_neg at hov
    have hcorelast : lastChars ov core = core := by
      unfold lastChars
      rw [show core.length - ov = 0 by omega, List.drop_zero]
    have hl : lastChars ov (w ++ core) =
        List.drop ((w ++ core).length - ov) w ++ core := by
      unfold lastChars
      rw [List.drop_append_eq_append_drop,
        show (w ++ core).length - ov - w.length = 0 by rw [hlen]; omega,
        List.drop_zero]
    rw [hcorelast, hl, stripLeft_ws_append (fun c hc =>
      hw c (List.mem_of_mem_drop hc))]

/-- Taking the trailing `ov` characters commutes with removing leading
whitespace (up to a final leading-whitespace strip). -/
theorem stripLeft_lastChars (ov : Nat) (l : List Char) :
    stripLeft (lastChars ov (stripLeft l)) = stripLeft (lastChars ov l) := by
  have hsplit : l.takeWhile isPySpace ++ stripLeft l = l :=
    List.takeWhile_append_dropWhile isPySpace l
  have := stripLeft_lastChars_aux ov (l.takeWhile isPySpace) (stripLeft l)
    (fun c hc => List.mem_takeWhile_imp hc)
  rw [hsplit] at this
  exact this

/-- Every sentence produced by `_split_into_sentences` is nonempty and has
no trailing whitespace (it was stripped). -/
theorem sentences_ok (text : List Char) :
    ∀ s ∈ split_into_sentences text, s ≠ [] ∧ noTailWs s := by
  intro s hs
  unfold split_into_sentences at hs
  have hmem := List.mem_filter.mp hs
  obtain ⟨hmap, hne⟩ := hmem
  obtain ⟨t, _, rfl⟩ := List.mem_map.mp hmap
  refine ⟨?_, noTailWs_pyStrip t⟩
  simpa using hne

/-! ### Chunk-size invariant (claim C2) -/

theorem isEmpty_eq_nil {l : List Char} (h : l.isEmpty = true) : l = [] :=
  List.isEmpty_iff.mp h

/-- Chunks emitted by the truncation branch of `_split_long_sentence` have
length exactly `chunk_size`. -/
theorem splitWordsAux_trunc_len (cs : Nat) (ws : List (List Char)) (cur : List Char) :
    ∀ c ∈ splitWordsAux cs ws cur, c.2 = EmitPath.longTrunc → c.1.length = cs := by
  induction ws generalizing cur with
  | nil =>
    intro c hc htr
    unfold splitWordsAux at hc
    split at hc
    · cases hc
    · rw [List.mem_singleton] at hc
      subst hc
      simp at htr
  | cons w rest ih =>
    intro c hc htr
    unfold splitWordsAux at hc
    split at hc
    · split at hc
      · rename_i hover hemp
        rcases List.mem_cons.mp hc with rfl | hmem
        · have hcur0 : cur = [] := isEmpty_eq_nil hemp
          subst hcur0
          simp only [List.length_nil, Nat.zero_add] at hover
          simp only [List.length_take]
          omega
        · exact ih [] c hmem htr
      · rcases List.mem_cons.mp hc with rfl | hmem
        · simp at htr
        · exact ih w c hmem htr
    · exact ih _ c hc htr

/-- Size invariant of the sentence loop: if the running buffer is within
bounds and every remaining sentence leaves room for the overlap seed, every
emitted chunk fits in `cs` characters. -/
theorem chunksLoopT_bound (cs ov : Nat) (rest : List (List Char)) (cur : List Char)
    (hcur : cur.length ≤ cs) (hs : ∀ s ∈ rest, s.length + ov + 1 ≤ cs) :
    ∀ c ∈ chunksLoopT cs ov rest cur, c.1.length ≤ cs := by
  induction rest generalizing cur with
  | nil =>
    intro c hc
    unfold chunksLoopT at hc
    split at hc
    · cases hc
    · rw [List.mem_singleton] at hc
      subst hc
      exact (pyStrip_length_le cur).trans hcur
  | cons s rest ih =>
    have hs0 := hs s (List.mem_cons_self _ _)
    have hsrest : ∀ u ∈ rest, u.length + ov + 1 ≤ cs :=
      fun u hu => hs u (List.mem_cons_of_mem _ hu)
    intro c hc
    unfold chunksLoopT at hc
    split at hc
    · rename_i hover
      split at hc
      · rename_i hemp
        have hcur0 : cur = [] := isEmpty_eq_nil hemp
        subst hcur0
        simp only [List.length_nil, Nat.zero_add] at hover
        omega
      · rcases List.mem_cons.mp hc with rfl | hmem
        · exact (pyStrip_length_le cur).trans hcur
        · refine ih _ ?_ hsrest c hmem
          simp only [List.length_append, List.length_cons, lastChars_length]
          omega
    · rename_i hfits
      push_neg at hfits
      refine ih _ ?_ hsrest c hc
      split
      · omega
      · simp only [List.length_append, List.length_cons]
        omega

/-! ### Overlap carry-over between adjacent chunks (claim C5) -/

theorem isEmpty_false {α : Type _} {l : List α} (h : l ≠ []) : l.isEmpty = false := by
  cases l with
  | nil => exact absurd rfl h
  | cons c rest => rfl

theorem adjOk_nil (ov : Nat) : AdjOk ov [] := by
  intro i c₁ c₂ t₂ h₁ _
  rw [List.getElem?_nil] at h₁
  cases h₁

theorem adjOk_singleton (ov : Nat) (x : List Char × EmitPath) : AdjOk ov [x] := by
  intro i c₁ c₂ t₂ h₁ h₂
  have : ([x] : List (List Char × EmitPath))[i + 1]? = none :=
    List.getElem?_eq_none (by simp)
  rw [this] at h₂
  cases h₂

theorem adjOk_cons (ov : Nat) (x : List Char × EmitPath) (L : List (List Char × EmitPath))
    (hL : AdjOk ov L)
    (hx : ∀ c₂ t₂, x.2 = EmitPath.overlapEmit → L.head? = some (c₂, t₂) →
      IsStart (stripLeft (lastChars ov x.1)) c₂) :
    AdjOk ov (x :: L) := by
  intro i c₁ c₂ t₂ h₁ h₂
  cases i with
  | zero =>
    rw [List.getElem?_cons_zero] at h₁
    injection h₁ with h₁
    rw [List.getElem?_cons_succ] at h₂
    have hhead : L.head? = some (c₂, t₂) := by
      rw [List.head?_eq_getElem?]
      exact h₂
    have := hx c₂ t₂ (by rw [h₁]) hhead
    rwa [h₁] at this
  | succ n =>
    rw [List.getElem?_cons_succ] at h₁ h₂
    exact hL n c₁ c₂ t₂ h₁ h₂

theorem adjOk_append {ov : Nat} {L₁ L₂ : List (List Char × EmitPath)}
    (h₁ : ∀ x ∈ L₁, x.2 ≠ EmitPath.overlapEmit) (h₂ : AdjOk ov L₂) :
    AdjOk ov (L₁ ++ L₂) := by
  induction L₁ with
  | nil => simpa using h₂
  | cons x L₁ ih =>
    rw [List.cons_append]
    refine adjOk_cons ov x (L₁ ++ L₂) (ih (fun y hy => h₁ y (List.mem_cons_of_mem _ hy))) ?_
    intro c₂ t₂ hover _
    exact absurd hover (h₁ x (List.mem_cons_self _ _))

/-- `_split_long_sentence` never emits on the overlap path. -/
theorem splitWordsAux_no_overlap (cs : Nat) (ws : List (List Char)) (cur : List Char) :
    ∀ x ∈ splitWordsAux cs ws cur, x.2 ≠ EmitPath.overlapEmit := by
  induction ws generalizing cur with
  | nil =>
    intro x hx
    unfold splitWordsAux at hx
    split at hx
    · cases hx
    · rw [List.mem_singleton] at hx
      subst hx
      simp
  | cons w rest ih =>
    intro x hx
    unfold splitWordsAux at hx
    split at hx
    · split at hx
      · rcases List.mem_cons.mp hx with rfl | hmem
        · simp
        · exact ih [] x hmem
      · rcases List.mem_cons.mp hx with rfl | hmem
        · simp
        · exact ih w x hmem
    · exact ih _ x hx

theorem chunksLoopT_nil (cs ov : Nat) (cur : List Char) :
    chunksLoopT cs ov [] cur =
      if cur.isEmpty then [] else [(pyStrip cur, EmitPath.plainFinal)] := rfl

theorem chunksLoopT_cons (cs ov : Nat) (s : List Char) (rest : List (List Char)) (cur : List Char) :
    chunksLoopT cs ov (s :: rest) cur =
      if cur.length + s.length + 1 > cs then
        if cur.isEmpty then
          if s.length > cs then split_long_sentenceT cs s ++ chunksLoopT cs ov rest []
          else chunksLoopT cs ov rest s
        else (pyStrip cur, EmitPath.overlapEmit) ::
          chunksLoopT cs ov rest (lastChars ov cur ++ ' ' :: s)
      else chunksLoopT cs ov rest (if cur.isEmpty then s else cur ++ ' ' :: s) := rfl

/-- The first chunk emitted from a nonempty buffer starts with the
left-stripped buffer: the loop only ever extends the buffer on the right
until it emits it (stripped). -/
theorem chunksLoopT_head (cs ov : Nat) (rest : List (List Char)) (b : List Char)
    (hb : b ≠ []) (hbt : noTailWs b)
    (hs : ∀ s ∈ rest, s ≠ [] ∧ noTailWs s) :
    ∃ c t, (chunksLoopT cs ov rest b).head? = some (c, t) ∧ IsStart (stripLeft b) c := by
  induction rest generalizing b with
  | nil =>
    refine ⟨pyStrip b, EmitPath.plainFinal, ?_, ?_⟩
    · rw [chunksLoopT_nil, isEmpty_false hb]
      rfl
    · rw [pyStrip_eq_stripLeft hbt]
      exact isStart_refl _
  | cons s rest ih =>
    obtain ⟨hsne, hsnt⟩ := hs s (List.mem_cons_self _ _)
    have hsrest : ∀ u ∈ rest, u ≠ [] ∧ noTailWs u :=
      fun u hu => hs u (List.mem_cons_of_mem _ hu)
    by_cases hover : b.length + s.length + 1 > cs
    · refine ⟨pyStrip b, EmitPath.overlapEmit, ?_, ?_⟩
      · rw [chunksLoopT_cons, if_pos hover, isEmpty_false hb, if_neg Bool.false_ne_true]
        rfl
      · rw [pyStrip_eq_stripLeft hbt]
        exact isStart_refl _
    · have hstep : chunksLoopT cs ov (s :: rest) b = chunksLoopT cs ov rest (b ++ ' ' :: s) := by
        rw [chunksLoopT_cons, if_neg hover, isEmpty_false hb, if_neg Bool.false_ne_true]
      have hb' : b ++ ' ' :: s ≠ [] := by simp
      have hsnt' : noTailWs (' ' :: s) := by
        have := noTailWs_append (b := [' ']) hsnt hsne
        simpa using this
      have hbt' : noTailWs (b ++ ' ' :: s) := noTailWs_append hsnt' (by simp)
      obtain ⟨c, t, hhead, hstart⟩ := ih (b ++ ' ' :: s) hb' hbt' hsrest
      refine ⟨c, t, by rw [hstep]; exact hhead, ?_⟩
      have hsplitapp : stripLeft (b ++ ' ' :: s) = stripLeft b ++ ' ' :: s :=
        stripLeft_append (last_mem_nonWs hbt hb)
      exact isStart_trans (hsplitapp ▸ isStart_append (stripLeft b) (' ' :: s)) hstart

/-- Adjacency invariant of the sentence loop. -/
theorem chunksLoopT_adj (cs ov : Nat) (rest : List (List Char)) (b : List Char)
    (hbt : noTailWs b) (hs : ∀ s ∈ rest, s ≠ [] ∧ noTailWs s) :
    AdjOk ov (chunksLoopT cs ov rest b) := by
  induction rest generalizing b with
  | nil =>
    rw [chunksLoopT_nil]
    split
    · exact adjOk_nil ov
    · exact adjOk_singleton ov _
  | cons s rest ih =>
    obtain ⟨hsne, hsnt⟩ := hs s (List.mem_cons_self _ _)
    have hsrest : ∀ u ∈ rest, u ≠ [] ∧ noTailWs u :=
      fun u hu => hs u (List.mem_cons_of_mem _ hu)
    have hsnt' : noTailWs (' ' :: s) := by
      have := noTailWs_append (b := [' ']) hsnt hsne
      simpa using this
    by_cases hover : b.length + s.length + 1 > cs
    · by_cases hbe : b = []
      · subst hbe
        by_cases hlong : s.length > cs
        · have hstep : chunksLoopT cs ov (s :: rest) [] =
              split_long_sentenceT cs s ++ chunksLoopT cs ov rest [] := by
            rw [chunksLoopT_cons, if_pos hover, if_pos (show ([] : List Char).isEmpty = true from rfl), if_pos hlong]
          rw [hstep]
          exact adjOk_append (splitWordsAux_no_overlap cs _ [])
            (ih [] noTailWs_nil hsrest)
        · have hstep : chunksLoopT cs ov (s :: rest) [] = chunksLoopT cs ov rest s := by
            rw [chunksLoopT_cons, if_pos hover, if_pos (show ([] : List Char).isEmpty = true from rfl), if_neg hlong]
          rw [hstep]
          exact ih s hsnt hsrest
      · have hseed : noTailWs (lastChars ov b ++ ' ' :: s) := noTailWs_append hsnt' (by simp)
        have hstep : chunksLoopT cs ov (s :: rest) b =
            (pyStrip b, EmitPath.overlapEmit) :: chunksLoopT cs ov rest (lastChars ov b ++ ' ' :: s) := by
          rw [chunksLoopT_cons, if_pos hover, isEmpty_false hbe, if_neg Bool.false_ne_true]
        rw [hstep]
        refine adjOk_cons ov _ _ (ih _ hseed hsrest) ?_
        intro c₂ t₂ _ hhead
        obtain ⟨c, t, hhead', hstart⟩ := chunksLoopT_head cs ov rest (lastChars ov b ++ ' ' :: s)
          (by simp) hseed hsrest
        rw [hhead'] at hhead
        injection hhead with hhead
        injection hhead with hc ht
        subst hc
        have hrw : stripLeft (lastChars ov (pyStrip b)) = stripLeft (lastChars ov b) := by
          rw [pyStrip_eq_stripLeft hbt, stripLeft_lastChars]
        rw [hrw]
        by_cases hlc : lastChars ov b = []
        · rw [hlc]
          exact isStart_nil _
        · have hlcnt : noTailWs (lastChars ov b) := noTailWs_lastChars ov hbt
          have hsplitapp : stripLeft (lastChars ov b ++ ' ' :: s) =
              stripLeft (lastChars ov b) ++ ' ' :: s :=
            stripLeft_append (last_mem_nonWs hlcnt hlc)
          exact isStart_trans (hsplitapp ▸ isStart_append _ (' ' :: s)) hstart
    · have hstep : chunksLoopT cs ov (s :: rest) b =
          chunksLoopT cs ov rest (if b.isEmpty then s else b ++ ' ' :: s) := by
        rw [chunksLoopT_cons, if_neg hover]
      rw [hstep]
      by_cases hbe : b = []
      · subst hbe
        exact ih s hsnt hsrest
      · rw [isEmpty_false hbe, if_neg Bool.false_ne_true]
        exact ih _ (noTailWs_append hsnt' (by simp)) hsrest

/-! ### Claim C2 — chunk sizes -/

/-- Claim C2, counterexample: with `target_size = 12`, `overlap = 5`, the
second chunk of the given text is emitted by the overlap path (not the
truncation path) and is 16 > 12 characters long: seeding a buffer with the
overlap text plus a near-target-size sentence overshoots the bound. -/
theorem c2_counterexample :
    ((chunk_text 12 5 "Abcd efgh. Nopq rstu. Wxyz.".toList none).map (fun r => r.chunk_text)) =
      ["Abcd efgh.".toList, "efgh. Nopq rstu.".toList, "rstu. Wxyz.".toList] ∧
    (chunk_text_tagged 12 5 "Abcd efgh. Nopq rstu. Wxyz.".toList)[1]? =
      some ("efgh. Nopq rstu.".toList, EmitPath.overlapEmit) ∧
    ("efgh. Nopq rstu.".toList).length = 16 := by
  refine ⟨by decide, by decide, by decide⟩

/-- Claim C2, amended: every chunk fits in `target_size` characters
provided every sentence unit of the cleaned text leaves room for the
overlap seed (`length + overlap + 1 ≤ target_size`); without that proviso
an overlap-seeded chunk can exceed `target_size` (see the counterexample).
Unconditionally, every chunk emitted by the single-long-word truncation
path of `_split_long_sentence` has length exactly `target_size`. -/
theorem c2_amended (cs ov : Nat) (text : List Char) (docId : Option String)
    (hs : ∀ s ∈ split_into_sentences (clean_text text), s.length + ov + 1 ≤ cs) :
    (∀ r ∈ chunk_text cs ov text docId, r.chunk_text.length ≤ cs) ∧
    (∀ sentence : List Char, ∀ c ∈ split_long_sentenceT cs sentence,
      c.2 = EmitPath.longTrunc → c.1.length = cs) := by
  constructor
  · intro r hr
    have hmem : ∀ total i chunks, (∀ c ∈ chunks, List.length c ≤ cs) →
        ∀ x ∈ buildRecords docId total i chunks, x.chunk_text.length ≤ cs := by
      intro total
      intro i chunks
      induction chunks generalizing i with
      | nil => intro _ x hx; cases hx
      | cons c rest ih =>
        intro hlen x hx
        rcases List.mem_cons.mp hx with rfl | hx
        · exact hlen c (List.mem_cons_self _ _)
        · exact ih (i + 1) (fun d hd => hlen d (List.mem_cons_of_mem _ hd)) x hx
    refine hmem _ 0 _ ?_ r hr
    intro c hc
    unfold create_chunks_with_overlap at hc
    obtain ⟨p, hp, rfl⟩ := List.mem_map.mp hc
    exact chunksLoopT_bound cs ov _ [] (by simp) hs p hp
  · intro sentence c hc htr
    exact splitWordsAux_trunc_len cs _ [] c hc htr

/-- Witness for the amended C2 at a concrete input. -/
theorem c2_witness : ("Ab cd. Ef.".toList).length ≤ 20 :=
  (c2_amended 20 3 "Ab cd. Ef.".toList none (by decide)).1
    { chunk_id := "chunk_0", chunk_text := "Ab cd. Ef.".toList, chunk_index := 0,
      chunk_size := 10, md_document_id := none, md_chunk_number := 1, md_total_chunks := 1 }
    (by decide)

/-! ### Claim C4 — constructor validation -/

/-- Claim C4, counterexample: constructing a chunker with
`overlap_size = 200 ≥ chunk_size = 100` does not raise — `__init__` has no
validation — and a later `chunk_text` call on such a service also returns
normally (here on a config with `overlap > chunk_size`, exercising the
truncation path as well). -/
theorem c4_counterexample :
    chunkingServiceInit 100 200 = Except.ok { chunk_size := 100, overlap_size := 200 } ∧
    (chunk_text 5 10 "Abcdef. Ghi.".toList none).map (fun r => r.chunk_text) =
      ["Abcde".toList, "Ghi.".toList] := by
  refine ⟨rfl, by decide⟩

/-- Claim C4, amended: construction never fails for any
`(chunk_size, overlap_size)` configuration — including `overlap ≥ target` —
because `__init__` performs no validation; and `chunk_text` (a total
function in this embedding) never raises for well-formed string input, as
the concrete evaluation under an invalid configuration shows. -/
theorem c4_amended : ∀ cs ov : Nat,
    chunkingServiceInit cs ov = Except.ok { chunk_size := cs, overlap_size := ov } :=
  fun _ _ => rfl

/-! ### Claim C5 — overlap carry-over -/

/-- Claim C5, counterexample: with `target_size = 11`, `overlap = 4`, chunk 0
is emitted via the overlap path, but its last 4 characters `" gh."` carry a
leading space that `str.strip()` removes from chunk 1 (`"gh. Ij."`), so they
are not literally a prefix of chunk 1. -/
theorem c5_counterexample :
    (chunk_text_tagged 11 4 "Abcdef gh. Ij.".toList)[0]? =
      some ("Abcdef gh.".toList, EmitPath.overlapEmit) ∧
    (chunk_text_tagged 11 4 "Abcdef gh. Ij.".toList)[1]? =
      some ("gh. Ij.".toList, EmitPath.plainFinal) ∧
    (lastChars 4 "Abcdef gh.".toList).isPrefixOf "gh. Ij.".toList = false := by
  refine ⟨by decide, by decide, by decide⟩

/-- Claim C5, amended: for every adjacent pair of chunks where chunk `i` was
emitted via the overlap path, the last `overlap` characters of chunk `i`,
after removing any leading whitespace (which `str.strip()` removes from the
start of chunk `i+1`), appear as a prefix of chunk `i+1`'s content. -/
theorem c5_amended (cs ov : Nat) (text : List Char) (i : Nat) (c₁ c₂ : List Char) (t₂ : EmitPath)
    (h₁ : (chunk_text_tagged cs ov text)[i]? = some (c₁, EmitPath.overlapEmit))
    (h₂ : (chunk_text_tagged cs ov text)[i + 1]? = some (c₂, t₂)) :
    (stripLeft (lastChars ov c₁)).isPrefixOf c₂ = true := by
  unfold chunk_text_tagged at h₁ h₂
  have hadj := chunksLoopT_adj cs ov (split_into_sentences (clean_text text)) []
    noTailWs_nil (sentences_ok (clean_text text))
  exact (isPrefixOf_ex _ _).mpr (hadj i c₁ c₂ t₂ h₁ h₂)

/-- Witness for the amended C5 at a concrete input. -/
theorem c5_witness :
    (stripLeft (lastChars 5 "Abcd efgh.".toList)).isPrefixOf "efgh. Nopq rstu.".toList = true :=
  c5_amended 12 5 "Abcd efgh. Nopq rstu. Wxyz.".toList 0
    "Abcd efgh.".toList "efgh. Nopq rstu.".toList EmitPath.overlapEmit
    (by decide) (by decide)

/-! ### Store-side helper lemmas -/

theorem sqDist_nonneg (q v : Vec) : 0 ≤ sqDist q v := by
  unfold sqDist
  induction q generalizing v with
  | nil => simp
  | cons x xs ih =>
    cases v with
    | nil => simp
    | cons y ys =>
      simp only [List.zipWith_cons_cons, List.sum_cons]
      have h1 : 0 ≤ (x - y) * (x - y) := mul_self_nonneg _
      have h2 := ih ys
      linarith

theorem sqDist_self (v : Vec) : sqDist v v = 0 := by
  unfold sqDist
  induction v with
  | nil => simp
  | cons x xs ih =>
    simp only [List.zipWith_cons_cons, List.sum_cons, sub_self, mul_zero, zero_mul]
    simpa using ih

theorem sqDist_eq_zero {q v : Vec} (h : sqDist q v = 0) (hlen : q.length = v.length) :
    q = v := by
  induction q generalizing v with
  | nil =>
    cases v with
    | nil => rfl
    | cons y ys => cases hlen
  | cons x xs ih =>
    cases v with
    | nil => cases hlen
    | cons y ys =>
      unfold sqDist at h
      simp only [List.zipWith_cons_cons, List.sum_cons] at h
      have h1 : 0 ≤ (x - y) * (x - y) := mul_self_nonneg _
      have h2 : 0 ≤ sqDist xs ys := sqDist_nonneg xs ys
      unfold sqDist at h2
      have hx : (x - y) * (x - y) = 0 := by linarith
      have hxy : x = y := by
        have := mul_self_eq_zero.mp hx
        linarith [sub_eq_zero.mp this]
      have hrest : sqDist xs ys = 0 := by unfold sqDist; linarith
      have hlen' : xs.length = ys.length := by
        simpa using hlen
      rw [hxy, ih hrest hlen']

theorem simScore_zero : simScore 0 = 1 := by norm_num [simScore]

theorem simScore_pos {d : ℚ} (h : 0 ≤ d) : 0 < simScore d := by
  unfold simScore
  have hden : (0 : ℚ) < 1 + d / 100 := by positivity
  positivity

theorem simScore_le_one {d : ℚ} (h : 0 ≤ d) : simScore d ≤ 1 := by
  unfold simScore
  rw [div_le_one (by positivity)]
  have : (0 : ℚ) ≤ d / 100 := by positivity
  linarith

theorem simScore_strictAnti {d₁ d₂ : ℚ} (h0 : 0 ≤ d₁) (h : d₁ < d₂) :
    simScore d₂ < simScore d₁ := by
  unfold simScore
  apply one_div_lt_one_div_of_lt
  · positivity
  · have : d₁ / 100 < d₂ / 100 := by linarith
    linarith

theorem rankRel_refl (a : ℚ × Nat) : rankRel a a := Or.inr ⟨rfl, le_refl _⟩

theorem sortedHead_min {l : List (ℚ × Nat)} {h : ℚ × Nat} {t : List (ℚ × Nat)}
    (heq : List.insertionSort rankRel l = h :: t) :
    h ∈ l ∧ ∀ y ∈ l, rankRel h y := by
  have hperm := List.perm_insertionSort rankRel l
  have hsorted := List.sorted_insertionSort rankRel l
  rw [heq] at hperm hsorted
  obtain ⟨hall, _⟩ := List.sorted_cons.mp hsorted
  refine ⟨hperm.mem_iff.mp (List.mem_cons_self _ _), ?_⟩
  intro y hy
  rcases List.mem_cons.mp (hperm.mem_iff.mpr hy) with rfl | hyt
  · exact rankRel_refl _
  · exact hall y hyt

theorem enumDists_length (q : Vec) (vecs : List Vec) (start : Nat) :
    (enumDists q vecs start).length = vecs.length := by
  induction vecs generalizing start with
  | nil => rfl
  | cons v vs ih => simp [enumDists, ih]

theorem enumDists_append (q : Vec) (l₁ l₂ : List Vec) (start : Nat) :
    enumDists q (l₁ ++ l₂) start =
      enumDists q l₁ start ++ enumDists q l₂ (start + l₁.length) := by
  induction l₁ generalizing start with
  | nil => simp [enumDists]
  | cons v vs ih =>
    simp only [List.cons_append, enumDists, List.length_cons, List.append_eq]
    rw [ih (start + 1)]
    rw [show start + 1 + vs.length = start + (vs.length + 1) by omega]

theorem mem_enumDists {q : Vec} {vecs : List Vec} {start : Nat} {p : ℚ × Nat}
    (h : p ∈ enumDists q vecs start) :
    ∃ j v, vecs[j]? = some v ∧ p.1 = sqDist q v ∧ p.2 = start + j := by
  induction vecs generalizing start with
  | nil => cases h
  | cons v vs ih =>
    rcases List.mem_cons.mp h with rfl | h
    · exact ⟨0, v, by simp, rfl, by omega⟩
    · obtain ⟨j, w, hj, h1, h2⟩ := ih h
      refine ⟨j + 1, w, by simpa using hj, h1, by omega⟩

theorem filterMap_congr_on {α β : Type _} {f g : α → Option β} :
    ∀ (l : List α), (∀ a ∈ l, f a = g a) → l.filterMap f = l.filterMap g := by
  intro l
  induction l with
  | nil => intro _; rfl
  | cons a l ih =>
    intro h
    rw [List.filterMap_cons, List.filterMap_cons, h a (List.mem_cons_self _ _),
      ih (fun b hb => h b (List.mem_cons_of_mem _ hb))]

theorem length_filterMap_le {α β : Type _} (f : α → Option β) (l : List α) :
    (l.filterMap f).length ≤ l.length := by
  induction l with
  | nil => simp
  | cons a l ih =>
    rw [List.filterMap_cons]
    cases f a with
    | none => exact ih.trans (by simp)
    | some b => simpa using ih

theorem lookup_append_of_none {β : Type _} (l₁ l₂ : List (Nat × β)) (k : Nat)
    (h : l₁.lookup k = none) : (l₁ ++ l₂).lookup k = l₂.lookup k := by
  induction l₁ with
  | nil => rfl
  | cons p l₁ ih =>
    obtain ⟨a, b⟩ := p
    rw [List.cons_append]
    cases hpk : (k == a) with
    | true =>
      exfalso
      simp only [List.lookup, hpk] at h
      cases h
    | false =>
      simp only [List.lookup, hpk] at h ⊢
      exact ih h

/-! ### Claim C8 — result count clamping and empty index -/

/-- Claim C8: `search_similar_chunks` returns at most
`min limit (number of stored vectors)` results (the requested `k` is clamped
to the index size), and an empty or not-yet-created index yields the empty
result list rather than an error. -/
theorem c8_search_clamped (st : StoreState) (q : Vec) (ids : Option (List String))
    (lim : Nat) (thr : ℚ) :
    (search_similar_chunks st q ids lim thr).length ≤ min lim (ntotal st) ∧
    (ntotal st = 0 → search_similar_chunks st q ids lim thr = []) := by
  cases hidx : st.index with
  | none => constructor <;> simp [search_similar_chunks, ntotal, hidx]
  | some vecs =>
    by_cases hv : vecs.isEmpty = true
    · constructor <;> simp [search_similar_chunks, ntotal, hidx, hv]
    · have hs : search_similar_chunks st q ids lim thr =
          List.filterMap (searchHit st ids thr)
            (faissSearch vecs q (if lim > vecs.length then vecs.length else lim)) := by
        simp [search_similar_chunks, hidx, hv]
      have hn : ntotal st = vecs.length := by simp [ntotal, hidx]
      rw [hs, hn]
      constructor
      · calc (List.filterMap (searchHit st ids thr)
              (faissSearch vecs q (if lim > vecs.length then vecs.length else lim))).length
            ≤ (faissSearch vecs q (if lim > vecs.length then vecs.length else lim)).length :=
              length_filterMap_le _ _
          _ ≤ min lim vecs.length := by
              unfold faissSearch
              rw [List.length_take, (List.perm_insertionSort rankRel _).length_eq,
                enumDists_length]
              split <;> omega
      · intro h0
        exact absurd (List.isEmpty_iff.mpr (List.length_eq_zero.mp h0)) hv

/-- Witness for C8: the search on a freshly constructed (empty) store. -/
theorem c8_witness : search_similar_chunks (initStore 2) [1, 0] none 5 (3/10) = [] :=
  (c8_search_clamped (initStore 2) [1, 0] none 5 (3/10)).2 rfl

/-! ### Claim C10 — deleting an unknown document -/

/-- Claim C10: `delete_document_chunks` on a document id with no recorded
chunk ids returns `True` and leaves the whole state — metadata map,
doc-chunks map, in-memory index and on-disk artifacts — unchanged, returning
before any mutation or persist step. -/
theorem c10_delete_unknown_noop (st : StoreState) (d : String)
    (h : (st.doc_chunks.lookup d).getD [] = []) :
    delete_document_chunks st d = (st, true) := by
  unfold delete_document_chunks
  rw [h]
  rfl

/-- Witness for C10 at a concrete store. -/
theorem c10_witness : delete_document_chunks (initStore 2) "missing" = (initStore 2, true) :=
  c10_delete_unknown_noop (initStore 2) "missing" rfl

/-! ### Claim C3 — dimension mismatch on store -/

/-- The metadata loop does not touch the index, the disk, or the embedding
dimension, and adds exactly one metadata entry per pair. -/
theorem storeChunksMeta_invariants (docId : String) (st : StoreState)
    (pairs : List (ChunkIn × Vec)) :
    (storeChunksMeta docId st pairs).index = st.index ∧
    (storeChunksMeta docId st pairs).disk = st.disk ∧
    (storeChunksMeta docId st pairs).metadata.length = st.metadata.length + pairs.length := by
  induction pairs generalizing st with
  | nil => exact ⟨rfl, rfl, rfl⟩
  | cons p rest ih =>
    obtain ⟨c, e⟩ := p
    have hstep : storeChunksMeta docId st ((c, e) :: rest) =
        storeChunksMeta docId { st with
          nextId := st.nextId + 1,
          metadata := st.metadata ++ [(st.nextId, ⟨docId, c.chunk_index, c.chunk_text⟩)],
          doc_chunks := docChunksAppend st.doc_chunks docId st.nextId } rest := rfl
    have h := ih { st with
      nextId := st.nextId + 1,
      metadata := st.metadata ++ [(st.nextId, ⟨docId, c.chunk_index, c.chunk_text⟩)],
      doc_chunks := docChunksAppend st.doc_chunks docId st.nextId }
    rw [hstep]
    refine ⟨h.1, h.2.1, ?_⟩
    have h3 := h.2.2
    simp only [List.length_append, List.length_singleton, List.length_cons,
      List.length_nil] at h3 ⊢
    omega

/-- Claim C3, counterexample: on a store with `embedding_dim = 2`, a batch
with a single 3-dimensional vector fails with a dimension mismatch, but the
in-memory metadata map has already been mutated (it gained the chunk's
entry), so the state is not unchanged; only the vector index and the disk
are untouched.  This also shows D is fixed at construction: the index was
empty, yet the first add did not establish dimension 3. -/
theorem c3_counterexample :
    (store_document_chunks (initStore 2) "doc" [⟨0, "t".toList⟩] [[1, 2, 3]]).2 =
      Except.error VSError.dimensionMismatch ∧
    (store_document_chunks (initStore 2) "doc" [⟨0, "t".toList⟩] [[1, 2, 3]]).1.metadata =
      [(0, ⟨"doc", 0, "t".toList⟩)] ∧
    (store_document_chunks (initStore 2) "doc" [⟨0, "t".toList⟩] [[1, 2, 3]]).1.index = some [] ∧
    (store_document_chunks (initStore 2) "doc" [⟨0, "t".toList⟩] [[1, 2, 3]]).1.disk =
      (initStore 2).disk := by
  exact ⟨rfl, rfl, rfl, rfl⟩

/-- Claim C3, amended: a nonempty batch of equal-length vectors whose
length differs from the configured dimension fails with a
dimension-mismatch error raised by the index, and the vector index contents
and the on-disk artifacts are unchanged — but the in-memory metadata map is
NOT unchanged: it has already gained one entry per chunk/embedding pair,
because the metadata loop runs before `index.add`.  The established
dimension D is the constructor's `embedding_dim`, not one fixed by the
first add. -/
theorem c3_amended (st : StoreState) (docId : String) (chunks : List ChunkIn) (embs : List Vec)
    (hne : chunks ≠ []) (hsame : sameLengths embs = true) (hnem : embs ≠ [])
    (hbad : embs.all (fun e => e.length == st.embedding_dim) = false) :
    (store_document_chunks st docId chunks embs).2 = Except.error VSError.dimensionMismatch ∧
    (store_document_chunks st docId chunks embs).1.index = some (st.index.getD []) ∧
    (store_document_chunks st docId chunks embs).1.disk = st.disk ∧
    (store_document_chunks st docId chunks embs).1.metadata.length =
      st.metadata.length + min chunks.length embs.length := by
  have hstep : store_document_chunks st docId chunks embs =
      (storeChunksMeta docId { st with index := some (st.index.getD []) } (chunks.zip embs),
       Except.error VSError.dimensionMismatch) := by
    unfold store_document_chunks
    rw [isEmpty_false hne, hsame, isEmpty_false hnem, hbad]
    rfl
  obtain ⟨h1, h2, h3⟩ := storeChunksMeta_invariants docId
    { st with index := some (st.index.getD []) } (chunks.zip embs)
  rw [hstep]
  refine ⟨rfl, by rw [h1], by rw [h2], ?_⟩
  simp only [h3, List.length_zip]

/-- Witness for the amended C3 at a concrete input. -/
theorem c3_witness :
    (store_document_chunks (initStore 4) "d" [⟨0, "x".toList⟩, ⟨1, "y".toList⟩]
      [[1, 2], [3, 4]]).2 = Except.error VSError.dimensionMismatch ∧
    (store_document_chunks (initStore 4) "d" [⟨0, "x".toList⟩, ⟨1, "y".toList⟩]
      [[1, 2], [3, 4]]).1.metadata.length = 2 := by
  have h := c3_amended (initStore 4) "d" [⟨0, "x".toList⟩, ⟨1, "y".toList⟩]
    [[1, 2], [3, 4]] (by simp) (by decide) (by simp) (by decide)
  exact ⟨h.1, h.2.2.2⟩

/-! ### Claim C1 — deletion leaves orphan vectors (code bug) -/

/-- Claim C1 (code bug in `delete_document_chunks`): after storing documents
A (vector `[1,0]`) and B (vector `[0,1]`) and deleting A, the index still
holds 2 vectors against 1 metadata entry — the positional alignment is
broken — and a search for A's exact vector returns document B's chunk with
similarity 1.0, even though B's vector is at squared distance 2 from the
query: the surviving vector is misattributed to the wrong chunk. -/
theorem c1_code_bug :
    ntotal c1Store = 2 ∧
    c1Store.metadata.length = 1 ∧
    search_similar_chunks c1Store [1, 0] none 5 (3/10) =
      [{ chunk_id := 1, document_id := "B", chunk_text := "b".toList, chunk_index := 0,
         similarity_score := 1 }] ∧
    sqDist [1, 0] [0, 1] = 2 := by
  refine ⟨rfl, rfl, ?_, by norm_num [sqDist]⟩
  norm_num +decide [c1Store, initStore, store_document_chunks, delete_document_chunks,
    storeChunksMeta, docChunksAppend, sameLengths, save_index, search_similar_chunks,
    faissSearch, enumDists, sqDist, simScore, searchHit, metaGetD, docFilterRejects,
    List.insertionSort, List.orderedInsert, rankRel, List.lookup, List.filterMap_cons,
    List.filterMap_nil]

/-! ### Claim C7 — exact-vector search returns the stored chunk -/

/-- The doc filter disabled (`document_ids = None`) rejects nothing. -/
theorem docFilterRejects_none (d : String) : docFilterRejects none d = false := rfl

/-- Claim C7, counterexample: in the post-delete store `c1Store` (2 index
vectors, 1 metadata entry), storing a fresh chunk for document C with
vector `[5,5]` succeeds, but the immediately following search with that
exact vector does not return the new chunk first with similarity 1.0: the
nearest position (2) lies beyond the metadata key list and is skipped
(line 129), and the first result is document B's chunk at similarity
100/141. -/
theorem c7_counterexample :
    (store_document_chunks c1Store "C" [⟨0, "c".toList⟩] [[5, 5]]).2 = Except.ok true ∧
    search_similar_chunks (store_document_chunks c1Store "C" [⟨0, "c".toList⟩] [[5, 5]]).1
      [5, 5] none 5 (3/10) =
      [{ chunk_id := 1, document_id := "B", chunk_text := "b".toList, chunk_index := 0,
         similarity_score := 100/141 },
       { chunk_id := 2, document_id := "C", chunk_text := "c".toList, chunk_index := 0,
         similarity_score := 100/141 }] := by
  constructor
  · rfl
  · norm_num +decide [c1Store, initStore, store_document_chunks, delete_document_chunks,
      storeChunksMeta, docChunksAppend, sameLengths, save_index, search_similar_chunks,
      faissSearch, enumDists, sqDist, simScore, searchHit, metaGetD, docFilterRejects,
      List.insertionSort, List.orderedInsert, rankRel, List.lookup, List.filterMap_cons,
      List.filterMap_nil]

/-- Claim C7, amended: the round trip holds on an aligned store (metadata
count equals the index's vector count, i.e. no metadata-only deletions have
occurred), with a fresh chunk id, a vector of the configured dimension that
differs from every already-stored vector, a positive result limit and a
threshold at most 1: storing one chunk and immediately searching with its
exact embedding returns that chunk first, with similarity exactly 1 (zero
distance). -/
theorem c7_amended (st : StoreState) (docId : String) (c : ChunkIn) (v : Vec)
    (halign : st.metadata.length = ntotal st)
    (hfresh : st.metadata.lookup st.nextId = none)
    (hdim : v.length = st.embedding_dim)
    (hdistinct : ∀ w ∈ st.index.getD [], sqDist v w ≠ 0)
    (lim : Nat) (hlim : 1 ≤ lim) (thr : ℚ) (hthr : thr ≤ 1) :
    (store_document_chunks st docId [c] [v]).2 = Except.ok true ∧
    ∃ r rest,
      search_similar_chunks (store_document_chunks st docId [c] [v]).1 v none lim thr =
        r :: rest ∧
      r.chunk_id = st.nextId ∧ r.similarity_score = 1 ∧
      r.chunk_text = c.chunk_text ∧ r.chunk_index = c.chunk_index := by
  have hstoreq : store_document_chunks st docId [c] [v] =
      (save_index { st with
        nextId := st.nextId + 1,
        metadata := st.metadata ++ [(st.nextId, ⟨docId, c.chunk_index, c.chunk_text⟩)],
        doc_chunks := docChunksAppend st.doc_chunks docId st.nextId,
        index := some (st.index.getD [] ++ [v]) }, Except.ok true) := by
    have h1 : [v].all (fun e => e.length == st.embedding_dim) = true := by
      simp [hdim]
    unfold store_document_chunks
    rw [h1]
    rfl
  set idx0 := st.index.getD [] with hidx0
  set stf := (store_document_chunks st docId [c] [v]).1 with hstf
  have hvecs : stf.index = some (idx0 ++ [v]) := by rw [hstf, hstoreq]; rfl
  have hmeta : stf.metadata = st.metadata ++ [(st.nextId, ⟨docId, c.chunk_index, c.chunk_text⟩)] := by
    rw [hstf, hstoreq]; rfl
  have hnt : ntotal st = idx0.length := by
    rw [hidx0]
    cases h : st.index <;> simp [ntotal, h]
  have hn : (st.metadata.map Prod.fst).length = idx0.length := by
    rw [List.length_map, halign, hnt]
  have hvne : (idx0 ++ [v]).isEmpty = false := isEmpty_false (by simp)
  have hsearch : search_similar_chunks stf v none lim thr =
      List.filterMap (searchHit stf none thr)
        (faissSearch (idx0 ++ [v]) v
          (if lim > (idx0 ++ [v]).length then (idx0 ++ [v]).length else lim)) := by
    simp [search_similar_chunks, hvecs, hvne]
  have hpairs : enumDists v (idx0 ++ [v]) 0 =
      enumDists v idx0 0 ++ [((0 : ℚ), idx0.length)] := by
    rw [enumDists_append]
    simp [enumDists, sqDist_self]
  obtain ⟨h, t, hsort⟩ : ∃ h t,
      List.insertionSort rankRel (enumDists v (idx0 ++ [v]) 0) = h :: t := by
    cases hsrt : List.insertionSort rankRel (enumDists v (idx0 ++ [v]) 0) with
    | nil =>
      exfalso
      have hpl := (List.perm_insertionSort rankRel (enumDists v (idx0 ++ [v]) 0)).length_eq
      rw [hsrt, enumDists_length] at hpl
      simp at hpl
    | cons a b => exact ⟨a, b, rfl⟩
  obtain ⟨hmem, hmin⟩ := sortedHead_min hsort
  have hh : h = ((0 : ℚ), idx0.length) := by
    rw [hpairs] at hmem
    rcases List.mem_append.mp hmem with hL | hR
    · exfalso
      obtain ⟨j, w, hj, hd, _⟩ := mem_enumDists hL
      have hw : w ∈ idx0 := List.getElem?_mem hj
      have hne0 : h.1 ≠ 0 := by rw [hd]; exact hdistinct w hw
      have hge : 0 ≤ h.1 := by rw [hd]; exact sqDist_nonneg v w
      have hz : ((0 : ℚ), idx0.length) ∈ enumDists v (idx0 ++ [v]) 0 := by
        rw [hpairs]
        exact List.mem_append.mpr (Or.inr (List.mem_singleton.mpr rfl))
      rcases hmin _ hz with hlt | ⟨heq, _⟩
      · exact absurd hlt (not_lt.mpr hge)
      · exact hne0 heq
    · exact List.mem_singleton.mp hR
  subst hh
  obtain ⟨m, hm⟩ : ∃ m, (if lim > (idx0 ++ [v]).length then (idx0 ++ [v]).length else lim) = m + 1 := by
    refine ⟨(if lim > (idx0 ++ [v]).length then (idx0 ++ [v]).length else lim) - 1, ?_⟩
    have hpos : 0 < (idx0 ++ [v]).length := by simp
    split <;> omega
  have htake : faissSearch (idx0 ++ [v]) v
      (if lim > (idx0 ++ [v]).length then (idx0 ++ [v]).length else lim) =
      ((0 : ℚ), idx0.length) :: List.take m t := by
    unfold faissSearch
    rw [hsort, hm, List.take_succ_cons]
  have hgete : (stf.metadata.map Prod.fst)[idx0.length]? = some st.nextId := by
    rw [hmeta, List.map_append]
    simp only [List.map_cons, List.map_nil]
    rw [← hn]
    exact List.getElem?_concat_length _ _
  have hlook : metaGetD stf.metadata st.nextId =
      (⟨docId, c.chunk_index, c.chunk_text⟩ : ChunkMeta) := by
    unfold metaGetD
    rw [hmeta, lookup_append_of_none _ _ _ hfresh]
    simp [List.lookup]
  have hhit : searchHit stf none thr ((0 : ℚ), idx0.length) =
      some { chunk_id := st.nextId,
             document_id := if docId == "" then "unknown" else docId,
             chunk_text := c.chunk_text,
             chunk_index := c.chunk_index,
             similarity_score := simScore 0 } := by
    unfold searchHit
    rw [hgete]
    simp only [hlook, docFilterRejects_none, Bool.false_eq_true, if_false]
    rw [if_pos (show simScore 0 ≥ thr by rw [simScore_zero]; exact hthr)]
  refine ⟨by rw [hstoreq],
    { chunk_id := st.nextId,
      document_id := if docId == "" then "unknown" else docId,
      chunk_text := c.chunk_text,
      chunk_index := c.chunk_index,
      similarity_score := simScore 0 },
    List.filterMap (searchHit stf none thr) (List.take m t),
    ?_, rfl, simScore_zero, rfl, rfl⟩
  rw [hsearch, htake, List.filterMap_cons, hhit]

/-- Witness for the amended C7: one chunk stored in a fresh store and
searched with its exact vector. -/
theorem c7_witness :
    (store_document_chunks (initStore 2) "D" [⟨0, "x".toList⟩] [[3, 4]]).2 = Except.ok true ∧
    ∃ r rest,
      search_similar_chunks (store_document_chunks (initStore 2) "D" [⟨0, "x".toList⟩] [[3, 4]]).1
        [3, 4] none 5 (3/10) = r :: rest ∧
      r.chunk_id = 0 ∧ r.similarity_score = 1 ∧
      r.chunk_text = "x".toList ∧ r.chunk_index = 0 :=
  c7_amended (initStore 2) "D" ⟨0, "x".toList⟩ [3, 4] rfl rfl rfl
    (by intro w hw; cases hw) 5 (by omega) (3/10) (by norm_num)

/-! ### Claim C6 — similarity score semantics -/

/-- Claim C6: the similarity score of every search result equals
`1 / (1 + distance / 100)` for the squared Euclidean distance between the
query and the index vector at the matched position (whose metadata slot
supplies the returned chunk); the score is strictly decreasing in the
non-negative distance and lies in `(0, 1]`; results below `min_similarity`
are excluded; and a threshold of `0` excludes nothing that was found (the
search equals the same search with the filter removed). -/
theorem c6_similarity_semantics :
    (∀ d₁ d₂ : ℚ, 0 ≤ d₁ → d₁ < d₂ → simScore d₂ < simScore d₁) ∧
    (∀ d : ℚ, 0 ≤ d → 0 < simScore d ∧ simScore d ≤ 1) ∧
    (∀ st q ids lim thr r, r ∈ search_similar_chunks st q ids lim thr →
      thr ≤ r.similarity_score ∧
      ∃ (i : Nat) (v : Vec), (indexVecs st)[i]? = some v ∧
        (st.metadata.map Prod.fst)[i]? = some r.chunk_id ∧
        r.similarity_score = simScore (sqDist q v)) ∧
    (∀ st q ids lim, search_similar_chunks st q ids lim 0 = search_no_threshold st q ids lim) := by
  refine ⟨fun d₁ d₂ h0 h => simScore_strictAnti h0 h,
          fun d hd => ⟨simScore_pos hd, simScore_le_one hd⟩, ?_, ?_⟩
  · intro st q ids lim thr r hr
    cases hidx : st.index with
    | none =>
      rw [show search_similar_chunks st q ids lim thr = [] by
        simp [search_similar_chunks, hidx]] at hr
      cases hr
    | some vecs =>
      by_cases hv : vecs.isEmpty = true
      · rw [show search_similar_chunks st q ids lim thr = [] by
          simp [search_similar_chunks, hidx, hv]] at hr
        cases hr
      · rw [show search_similar_chunks st q ids lim thr =
            List.filterMap (searchHit st ids thr)
              (faissSearch vecs q (if lim > vecs.length then vecs.length else lim)) by
          simp [search_similar_chunks, hidx, hv]] at hr
        obtain ⟨p, hp, hfp⟩ := List.mem_filterMap.mp hr
        have hpmem : p ∈ enumDists q vecs 0 :=
          ((List.perm_insertionSort rankRel _).mem_iff).mp (List.mem_of_mem_take hp)
        obtain ⟨j, v, hj, hdist, hpos⟩ := mem_enumDists hpmem
        unfold searchHit at hfp
        cases hcid : (st.metadata.map Prod.fst)[p.2]? with
        | none => rw [hcid] at hfp; cases hfp
        | some cid =>
          rw [hcid] at hfp
          simp only at hfp
          by_cases hrej : docFilterRejects ids (metaGetD st.metadata cid).document_id = true
          · rw [if_pos hrej] at hfp; cases hfp
          · rw [if_neg hrej] at hfp
            by_cases hthr : simScore p.1 ≥ thr
            · rw [if_pos hthr] at hfp
              injection hfp with hfp
              subst hfp
              refine ⟨hthr, p.2, v, ?_, ?_, ?_⟩
              · have : indexVecs st = vecs := by simp [indexVecs, hidx]
                rw [this, hpos, Nat.zero_add]
                exact hj
              · exact hcid
              · simp [hdist]
            · rw [if_neg hthr] at hfp; cases hfp
  · intro st q ids lim
    cases hidx : st.index with
    | none => simp [search_similar_chunks, search_no_threshold, hidx]
    | some vecs =>
      by_cases hv : vecs.isEmpty = true
      · simp [search_similar_chunks, search_no_threshold, hidx, hv]
      · rw [show search_similar_chunks st q ids lim 0 =
            List.filterMap (searchHit st ids 0)
              (faissSearch vecs q (if lim > vecs.length then vecs.length else lim)) by
          simp [search_similar_chunks, hidx, hv],
          show search_no_threshold st q ids lim =
            List.filterMap (searchHitNoThr st ids)
              (faissSearch vecs q (if lim > vecs.length then vecs.length else lim)) by
          simp [search_no_threshold, hidx, hv]]
        apply filterMap_congr_on
        intro p hp
        have hpmem : p ∈ enumDists q vecs 0 :=
          ((List.perm_insertionSort rankRel _).mem_iff).mp (List.mem_of_mem_take hp)
        obtain ⟨j, v, hj, hdist, hpos⟩ := mem_enumDists hpmem
        unfold searchHit searchHitNoThr
        cases hcid : (st.metadata.map Prod.fst)[p.2]? with
        | none => rfl
        | some cid =>
          simp only
          by_cases hrej : docFilterRejects ids (metaGetD st.metadata cid).document_id = true
          · rw [if_pos hrej, if_pos hrej]
          · rw [if_neg hrej, if_neg hrej]
            have hge : simScore p.1 ≥ (0 : ℚ) := by
              rw [hdist]
              exact le_of_lt (simScore_pos (sqDist_nonneg q v))
            rw [if_pos hge]

/-- Witness for C6: the monotonicity and range clauses at concrete
distances. -/
theorem c6_witness : simScore 1 < simScore 0 ∧ 0 < simScore 4 ∧ simScore 4 ≤ 1 :=
  ⟨c6_similarity_semantics.1 0 1 le_rfl one_pos,
   (c6_similarity_semantics.2.1 4 (by norm_num)).1,
   (c6_similarity_semantics.2.1 4 (by norm_num)).2⟩

/-! ### Claim C9 — determinism of chunking -/

/-- Claim C9: chunking is deterministic — two `chunk_text` calls with equal
input text, equal document id and equal `(target_size, overlap)` parameters
produce identical chunk sequences (same texts, same boundaries, same
`chunk_index` values, same ids and metadata). -/
theorem c9_deterministic (cs ov : Nat) (t₁ t₂ : List Char) (d₁ d₂ : Option String)
    (ht : t₁ = t₂) (hd : d₁ = d₂) :
    chunk_text cs ov t₁ d₁ = chunk_text cs ov t₂ d₂ := by
  rw [ht, hd]

/-- Witness for C9 at a concrete input. -/
theorem c9_witness :
    chunk_text 1024 256 "Hi there. Second sentence.".toList (some "d") =
      chunk_text 1024 256 "Hi there. Second sentence.".toList (some "d") :=
  c9_deterministic 1024 256 _ _ _ _ rfl rfl

end Rag
